import Mathlib

/-!
Verification development for the `umpmc` MPMC queue (`src/queue.rs`,
`src/synchronized.rs`).

The embedding is a sequential (quiescent) shallow embedding of the code:
the heap of nodes is an explicit map `Nat → Option (Node T)`, every atomic
read/write is a plain read/write of the state, and every CAS succeeds
exactly when the location currently holds the expected value.  Between two
steps of a single operation no other thread runs, so spin-wait loops reduce
to their exit condition (the state they poll cannot change), and retry
loops execute the number of iterations the sequential semantics forces.
Machine integers (`usize`) are modelled as `Nat` together with an explicit
modulus `M = 2 ^ W`; every `wrapping_add` becomes `(· + ·) % M`.

Fallible steps (dereferencing a pointer that is not in the heap, exhausting
the fuel of a loop whose termination relies on the data-structure
invariant) return `none`; the theorems prove that on states reachable by
sequential operation sequences they never fire.
-/

namespace Umpmc

/-- `Node<T>` from `queue.rs`: one value slot (`MaybeUninit<T>`, modelled
as `Option T`), the write-once sequence index `NodeIndex` (modelled as
`Option Nat`: `none` is "not set"), the non-atomic back link `prev` and the
atomic forward link `next`. -/
structure Node (T : Type) where
  value : Option T
  index : Option Nat
  prev : Nat
  next : Nat
  deriving Repr

/-- The shared node heap. -/
abbrev Heap (T : Type) := Nat → Option (Node T)

/-- Heap update at one pointer. -/
def hset (h : Heap T) (p : Nat) (n : Node T) : Heap T :=
  fun q => if q = p then some n else h q

/-- `Node::new()`. -/
def Node.new : Node T :=
  { value := none, index := none, prev := 0, next := 0 }

/-- The three-valued dequeue outcome `Dequeue<T>` from `queue.rs`. -/
inductive Dequeue (T : Type) where
  | Empty
  | Spin
  | Data (v : T)
  deriving DecidableEq, Repr

/-- `Dequeue::data`: projection to `Option`, `some` only for `Data`. -/
def Dequeue.data : Dequeue T → Option T
  | .Data v => some v
  | _ => none

/-- The state of a `Queue<T>`: the two ends of the doubly-chained list, the
global wrapping sequence counter, the head of the Treiber cache of retired
nodes (cached nodes are chained through their `prev` field), plus the node
heap and an allocation bound `nextPtr` (all live pointers are `< nextPtr`,
so `nextPtr` is always a fresh address). -/
structure Queue (T : Type) where
  heap : Heap T
  head : Nat
  tail : Nat
  index : Nat
  cache : Nat
  nextPtr : Nat

/-- `Queue::new()`. -/
def Queue.new : Queue T :=
  { heap := fun _ => none, head := 0, tail := 0, index := 0, cache := 0, nextPtr := 1 }

/-- `Cache::pop`: CAS-pop of the Treiber stack.  Sequentially the CAS
succeeds on the first try; popping follows the `prev` chain.  Returns the
popped pointer (or `0` on an empty cache) and the new state. -/
def Queue.cachePop (s : Queue T) : Option (Nat × Queue T) :=
  if s.cache = 0 then some (0, s)
  else do
    let n ← s.heap s.cache
    some (s.cache, { s with cache := n.prev })

/-- `Cache::get`: pop a retired node, or allocate a fresh one on a miss. -/
def Queue.cacheGet (s : Queue T) : Option (Nat × Queue T) := do
  let (p, s1) ← s.cachePop
  if p = 0 then
    some (s1.nextPtr,
      { s1 with heap := hset s1.heap s1.nextPtr Node.new, nextPtr := s1.nextPtr + 1 })
  else
    some (p, s1)

/-- The backwards walk of `Queue::enqueue` that derives the new node's
sequence index: starting from the previous head with `offset = 1`, follow
`prev` links until a node with a set index is found (then the new index is
that index plus the offset, wrapping), or until the node with `prev ==
null` is reached, where the walk falls back to the global counter `qidx`
(after re-checking the node's own index once more).  `fuel` bounds the walk
(on invariant-satisfying states the very first node already has its index
set, so any positive fuel suffices). -/
def walkIndex (M : Nat) (h : Heap T) (qidx : Nat) : Nat → Nat → Nat → Option Nat
  | 0, _, _ => none
  | fuel + 1, prev, offset => do
    let pn ← h prev
    match pn.index with
    | some i => some ((i + offset) % M)
    | none =>
      if pn.prev = 0 then
        -- let index = self.index.load(Acquire); then re-check prev.index
        match pn.index with
        | some i => some ((i + offset) % M)
        | none => some ((qidx + offset) % M)
      else
        walkIndex M h qidx fuel pn.prev (offset + 1)

/-- `Queue::enqueue`: take a node from the cache, write the value, link
`prev` to the current head and publish the node at `head` by CAS
(sequentially the first CAS succeeds).  If the queue was non-empty, derive
the node's index by the backwards walk and publish the forward link
`old_head.next = node`; if it was empty, set the node's index to the global
counter and store `tail = node`. -/
def Queue.enqueue (M : Nat) (s : Queue T) (v : T) : Option (Queue T) := do
  let (np, s1) ← s.cacheGet
  let n0 ← s1.heap np
  -- node.value.write(value); node.prev = head; CAS(head, head, node)
  let h := s1.head
  let s2 : Queue T :=
    { s1 with heap := hset s1.heap np { n0 with value := some v, prev := h }, head := np }
  if h ≠ 0 then do
    let idx ← walkIndex M s2.heap s2.index s2.nextPtr h 1
    let n1 ← s2.heap np
    let s3 := { s2 with heap := hset s2.heap np { n1 with index := some idx } }
    -- unsafe { &*head }.next.store(node, Release)
    let hn ← s3.heap h
    some { s3 with heap := hset s3.heap h { hn with next := np } }
  else do
    -- node.index.set(self.index.load(Relaxed)); self.tail.store(node, SeqCst)
    let n1 ← s2.heap np
    let s3 := { s2 with heap := hset s2.heap np { n1 with index := some s2.index } }
    some { s3 with tail := np }

/-- `Queue::set_tail`: publish `next` as the new tail by CAS.  On a failed
CAS with observed tail `t`, stop if the global counter already moved past
`index` (`index != current_index - 1`, computed wrapping) or if `t` is
already a fresh valid tail (`t.prev == null` and `t.index ==
Some(current_index)`); otherwise retry with `tail = t` (sequentially that
second attempt succeeds).  Then extract the value, unset the node's index,
clear its forward link and push it on the cache (`put` writes the node's
`prev`). -/
def Queue.set_tail (M : Nat) (s : Queue T) (nodePtr tail next : Nat) (index : Nat) :
    Option (T × Queue T) := do
  let s1 ←
    if s.tail = tail then
      some { s with tail := next }
    else do
      let t := s.tail
      let current_index := s.index
      let brk ←
        if index ≠ (current_index + (M - 1)) % M then some true
        else if t = 0 then some false
        else do
          let tn ← s.heap t
          some (decide (tn.prev = 0 ∧ tn.index = some current_index))
      if brk then some s
      else some { s with tail := next }
  let n ← s1.heap nodePtr
  let value ← n.value
  -- node.index.unset(); node.next.store(null, Release); self.cache.put(node)
  some (value,
    { s1 with
      heap := hset s1.heap nodePtr { n with value := none, index := none, next := 0, prev := s1.cache },
      cache := nodePtr })

/-- One iteration of the `while !tail.is_null()` loop of
`Queue::dequeue_spin`, carrying the loop-local `index` and `tail`.  The two
spin-wait loops poll state that cannot change sequentially, so they reduce
to their exit conditions; each CAS succeeds exactly when the location holds
the expected value.  `fuel` bounds the loop (on invariant-satisfying states
the first iteration already returns). -/
def Queue.dequeueLoop (M : Nat) (spin : Nat) :
    Nat → Nat → Nat → Queue T → Option (Dequeue T × Queue T)
  | 0, _, _, _ => none
  | fuel + 1, index, tail, s =>
    if tail = 0 then some (.Empty, s)
    else do
      let node ← s.heap tail
      -- for _ in 0..spin { if node.index.get().is_some() { break } }
      match node.index with
      | none => some (.Spin, s)
      | some tail_index =>
        -- for _ in 0..spin { if !node.next.is_null() || tail == head { break } }
        let head := s.head
        let next := node.next
        if next = 0 ∧ tail ≠ head then some (.Spin, s)
        else
          let next_index := (index + 1) % M
          if index = tail_index ∧ s.index = index then
            -- CAS(self.index, index, next_index) succeeded: slot claimed
            let s1 := { s with index := next_index }
            if tail = head then
              if s1.head = head then
                -- CAS(self.head, head, null) succeeded: queue becomes empty
                let s2 := { s1 with head := 0 }
                let (v, s3) ← s2.set_tail M tail tail next index
                some (.Data v, s3)
              else do
                -- a concurrent enqueue replaced head: wait for next, else roll back
                let next2 := node.next
                if next2 = 0 ∧ s1.index = next_index then
                  -- CAS(self.index, next_index, index) succeeded: claim retracted
                  some (.Spin, { s1 with index := index })
                else do
                  let (v, s3) ← s1.set_tail M tail tail node.next index
                  some (.Data v, s3)
            else do
              let (v, s3) ← s1.set_tail M tail tail next index
              some (.Data v, s3)
          else
            -- not claimed: pick up the observed counter and advance to next
            Queue.dequeueLoop M spin fuel (if index = tail_index then s.index else index) next s

/-- `Queue::dequeue_spin`. -/
def Queue.dequeue_spin (M : Nat) (s : Queue T) (spin : Nat) : Option (Dequeue T × Queue T) :=
  Queue.dequeueLoop M spin s.nextPtr s.index s.tail s

/-- `Queue::dequeue` is `dequeue_spin(0)`. -/
def Queue.dequeue (M : Nat) (s : Queue T) : Option (Dequeue T × Queue T) :=
  s.dequeue_spin M 0

/-! ### Operation sequences and the reference functional FIFO -/

/-- A single-threaded queue operation. -/
inductive QOp (T : Type) where
  | enq (v : T)
  | deq (spin : Nat)

/-- Run a sequence of operations on the embedded queue, collecting the
dequeue results and the final state. -/
def runImpl (M : Nat) : Queue T → List (QOp T) → Option (List (Dequeue T) × Queue T)
  | s, [] => some ([], s)
  | s, .enq v :: ops => do
    let s1 ← s.enqueue M v
    runImpl M s1 ops
  | s, .deq sp :: ops => do
    let (r, s1) ← s.dequeue_spin M sp
    let (rs, s2) ← runImpl M s1 ops
    some (r :: rs, s2)

/-- Run the same sequence of operations on the reference functional FIFO
queue: `enqueue` appends at the back, `dequeue` returns `Data` of the front
element and removes it when the list is non-empty, `Empty` otherwise.
Returns the dequeue results and the final abstract queue. -/
def runSpec : List T → List (QOp T) → List (Dequeue T) × List T
  | l, [] => ([], l)
  | l, .enq v :: ops => runSpec (l ++ [v]) ops
  | l, .deq _ :: ops =>
    match l with
    | [] =>
      let (rs, lf) := runSpec ([] : List T) ops
      (.Empty :: rs, lf)
    | v :: rest =>
      let (rs, lf) := runSpec rest ops
      (.Data v :: rs, lf)

/-- Number of `Data` results in a list of dequeue outcomes. -/
def countData : List (Dequeue T) → Nat
  | [] => 0
  | .Data _ :: rs => countData rs + 1
  | _ :: rs => countData rs

/-- The concrete scenario S2 of the spec:
`e(0) d e(1) d e(2) e(3) d e(4) e(5) d d d d`. -/
def s2ops : List (QOp Nat) :=
  [.enq 0, .deq 0, .enq 1, .deq 0, .enq 2, .enq 3, .deq 0, .enq 4, .enq 5,
   .deq 0, .deq 0, .deq 0, .deq 0]

/-! ### The quiescent-state invariant -/

/-- First pointer of a pointer/value chain (`0` for the empty chain). -/
def nextOf : List (Nat × T) → Nat
  | [] => 0
  | (p, _) :: _ => p

/-- Last pointer of a pointer/value chain (`0` for the empty chain). -/
def lastOf (pvs : List (Nat × T)) : Nat :=
  match pvs.getLast? with
  | some (p, _) => p
  | none => 0

/-- The queue chain from tail to head: `pvs` lists the live nodes in FIFO
order together with their values.  The node at position `j` carries the
sequence index `(i + j) % M`, its `next` link points to the following node
(the head node's `next` is null) and its value slot is full. -/
def chainInv (M : Nat) (h : Heap T) : Nat → List (Nat × T) → Prop
  | _, [] => True
  | i, (p, v) :: rest =>
    p ≠ 0 ∧ ∃ n, h p = some n ∧ n.value = some v ∧ n.index = some (i % M) ∧
      n.next = nextOf rest ∧ chainInv M h (i + 1) rest

/-- The Treiber cache: `cs` lists the retired nodes from the top of the
stack, chained through their `prev` field, each with a cleared forward
link. -/
def cacheInv (h : Heap T) : Nat → List Nat → Prop
  | c, [] => c = 0
  | c, q :: qs => c = q ∧ q ≠ 0 ∧ ∃ n, h q = some n ∧ n.next = 0 ∧ cacheInv h n.prev qs

/-- The full quiescent-state invariant of a `Queue`, with the chain `pvs`
(tail first) and the cache contents `cs` exposed: `tail` points at the
first chain node and `head` at the last, the global counter is the index
of the next node to dequeue, all live pointers are pairwise distinct and
below the allocation bound. -/
structure InvW (M : Nat) (s : Queue T) (pvs : List (Nat × T)) (cs : List Nat) : Prop where
  chain : chainInv M s.heap s.index pvs
  tail_eq : s.tail = nextOf pvs
  head_eq : s.head = lastOf pvs
  cache_ok : cacheInv s.heap s.cache cs
  nodup : (pvs.map Prod.fst ++ cs).Nodup
  bounded : ∀ p ∈ pvs.map Prod.fst ++ cs, p < s.nextPtr
  index_lt : s.index < M
  next_pos : 1 ≤ s.nextPtr

/-- A queue state is well-formed with abstract FIFO contents `l`. -/
def InvL (M : Nat) (s : Queue T) (l : List T) : Prop :=
  ∃ pvs cs, InvW M s pvs cs ∧ pvs.map Prod.snd = l

/-! ### The synchronized wrapper (`synchronized.rs`) -/

/-- The single-shot notification latch of a `Waker` (`synchronized.rs`).
The parked thread / task waker inside is irrelevant to the latch protocol,
so the model keeps only the atomic `notified` flag. -/
structure Waker where
  notified : Bool
  deriving DecidableEq, Repr

/-- `Waker::new_sync` / `Waker::new_async`: the latch starts unset. -/
def Waker.new : Waker :=
  { notified := false }

/-- `Waker::wake`: swap `notified` to `true`; if the previous value was
`false`, dispatch the notification and return `true`, else return
`false`. -/
def Waker.wake (w : Waker) : Bool × Waker :=
  (!w.notified, { notified := true })

/-- `Waker::abort`: swap `notified` to `true` (when the previous value was
already `true` the Sync variant absorbs the racing unpark by parking once,
which does not affect the latch). -/
def Waker.abort (w : Waker) : Waker :=
  { notified := true }

/-- A call on a waker handle. -/
inductive WakerOp where
  | wake
  | abort

/-- Run a sequence of `wake`/`abort` calls on one waker, collecting the
results of the `wake` calls in order. -/
def runWaker : Waker → List WakerOp → Waker × List Bool
  | w, [] => (w, [])
  | w, .wake :: ops =>
    let step := runWaker (w.wake).2 ops
    (step.1, (w.wake).1 :: step.2)
  | w, .abort :: ops => runWaker w.abort ops

/-- State of a `SynchronizedQueue<T>`: the inner value queue, the queue of
waker handles (represented by identifiers, since `Arc<Waker>` handles are
shared) and the `notified` latch of every waker identifier. -/
structure SynchronizedQueue (T : Type) where
  inner : Queue T
  wake_queue : Queue Nat
  wakers : Nat → Bool

/-- `SynchronizedQueue::new()` (with an initially unset latch table). -/
def SynchronizedQueue.new : SynchronizedQueue T :=
  { inner := Queue.new, wake_queue := Queue.new, wakers := fun _ => false }

/-- The waker loop of `SynchronizedQueue::enqueue_notify_spin`:
`while let Dequeue::Data(waker) = self.wake_queue.dequeue_spin(spin) {
if waker.wake() { break } }`.  Popping yields a waker identifier; `wake`
swaps its latch to `true` and reports whether it was previously unset.
`fuel` bounds the loop (each `Data` pop shrinks the queue, so any fuel
larger than the queue length suffices). -/
def notifyWakers (M : Nat) (spin : Nat) :
    Nat → Queue Nat → (Nat → Bool) → Option (Queue Nat × (Nat → Bool) × Option Nat)
  | 0, _, _ => none
  | fuel + 1, wq, wakers => do
    let (r, wq1) ← wq.dequeue_spin M spin
    match r with
    | .Data i =>
      let wakers1 := fun j => if j = i then true else wakers j
      if wakers i then notifyWakers M spin fuel wq1 wakers1
      else some (wq1, wakers1, some i)
    | _ => some (wq1, wakers, none)

/-- `SynchronizedQueue::enqueue_notify_spin(value, spin)`: enqueue the
value on the inner queue, then pop wakers one at a time and wake them,
stopping at the first waker whose `wake()` returns `true`. -/
def SynchronizedQueue.enqueue_notify_spin (M : Nat) (s : SynchronizedQueue T) (v : T)
    (spin : Nat) : Option (SynchronizedQueue T) := do
  let inner1 ← s.inner.enqueue M v
  let (wq1, wk1, _) ← notifyWakers M spin s.wake_queue.nextPtr s.wake_queue s.wakers
  some { inner := inner1, wake_queue := wq1, wakers := wk1 }

/-- `SynchronizedQueue::try_dequeue_spin`. -/
def SynchronizedQueue.try_dequeue_spin (M : Nat) (s : SynchronizedQueue T) (spin : Nat) :
    Option (Dequeue T × Queue T) :=
  s.inner.dequeue_spin M spin

/-- The deadline-expired return path of `SynchronizedQueue::dequeue_sync`
(reached by `dequeue_timeout` / `dequeue_timeout_spin`): once
`Instant::now() >= end`, the call returns `self.try_dequeue_spin(spin)`
(`synchronized.rs` lines 102-106). -/
def SynchronizedQueue.dequeue_timeout_expired (M : Nat) (s : SynchronizedQueue T)
    (spin : Nat) : Option (Dequeue T × Queue T) :=
  s.try_dequeue_spin M spin

/-! ### Concrete states used by counterexamples and witnesses -/

/-- A queue state with an enqueue in progress: a second producer has
CAS-published its node (pointer `2`) at `head` but has not yet derived its
index nor stored `old_head.next`.  Reached from `Queue::new()` by a
completed `enqueue(7)` followed by the first half of a concurrent
`enqueue(8)`. -/
def contendedQ : Queue Nat :=
  { heap := fun p =>
      if p = 1 then some { value := some 7, index := some 0, prev := 0, next := 0 }
      else if p = 2 then some { value := some 8, index := none, prev := 1, next := 0 }
      else none,
    head := 2, tail := 1, index := 0, cache := 0, nextPtr := 3 }

/-- A synchronized queue whose inner queue is in the contended state
`contendedQ`. -/
def contendedSQ : SynchronizedQueue Nat :=
  { inner := contendedQ, wake_queue := Queue.new, wakers := fun _ => false }

/-- The quiescent state reached from `Queue::new()` by `enqueue(5)`: one
live node at pointer `1` with sequence index `0`. -/
def oneElemQ : Queue Nat :=
  { heap := fun p =>
      if p = 1 then some { value := some 5, index := some 0, prev := 0, next := 0 } else none,
    head := 1, tail := 1, index := 0, cache := 0, nextPtr := 2 }

/-- The quiescent state reached from `Queue::new()` by `enqueue(5)` then
`dequeue()`: the queue is empty and the retired node (pointer `1`) sits in
the cache. -/
def cachedQ : Queue Nat :=
  { heap := fun p =>
      if p = 1 then some { value := none, index := none, prev := 0, next := 0 } else none,
    head := 0, tail := 0, index := 1, cache := 1, nextPtr := 2 }

/-! ### Helper lemmas -/

theorem hset_self (h : Heap T) (p : Nat) (n : Node T) : hset h p n p = some n := by
  simp [hset]

theorem hset_ne (h : Heap T) {p q : Nat} (n : Node T) (hq : q ≠ p) : hset h p n q = h q := by
  simp [hset, hq]

@[simp] theorem nextOf_nil : nextOf ([] : List (Nat × T)) = 0 := rfl

@[simp] theorem nextOf_cons (p : Nat) (v : T) (rest : List (Nat × T)) :
    nextOf ((p, v) :: rest) = p := rfl

theorem nextOf_append_ne (pvs : List (Nat × T)) (x : Nat × T) (h : pvs ≠ []) :
    nextOf (pvs ++ [x]) = nextOf pvs := by
  cases pvs with
  | nil => exact absurd rfl h
  | cons a rest => cases a; rfl

@[simp] theorem lastOf_nil : lastOf ([] : List (Nat × T)) = 0 := rfl

theorem lastOf_singleton (p : Nat) (v : T) : lastOf [(p, v)] = p := by
  simp [lastOf]

theorem lastOf_concat (pvs : List (Nat × T)) (np : Nat) (v : T) :
    lastOf (pvs ++ [(np, v)]) = np := by
  simp [lastOf, List.getLast?_concat]

theorem lastOf_cons_cons (x y : Nat × T) (rest : List (Nat × T)) :
    lastOf (x :: y :: rest) = lastOf (y :: rest) := by
  simp [lastOf, List.getLast?_cons_cons]

theorem lastOf_mem (pvs : List (Nat × T)) (h : pvs ≠ []) :
    lastOf pvs ∈ pvs.map Prod.fst := by
  induction pvs with
  | nil => exact absurd rfl h
  | cons a rest ih =>
    cases rest with
    | nil => cases a; simp [lastOf]
    | cons b rest' =>
      rw [lastOf_cons_cons]
      exact List.mem_cons_of_mem _ (ih (by simp))

theorem chainInv_frame {h h' : Heap T} {M i : Nat} {pvs : List (Nat × T)}
    (hc : chainInv M h i pvs) (hagree : ∀ p ∈ pvs.map Prod.fst, h' p = h p) :
    chainInv M h' i pvs := by
  induction pvs generalizing i with
  | nil => trivial
  | cons a rest ih =>
    obtain ⟨p, v⟩ := a
    simp only [chainInv] at hc ⊢
    obtain ⟨hp0, n, hn, hv, hi, hnx, hrest⟩ := hc
    exact ⟨hp0, n, by rw [hagree p (by simp)]; exact hn, hv, hi, hnx,
      ih hrest (fun q hq => hagree q (by simp [hq]))⟩

theorem chainInv_congr {h : Heap T} {M i j : Nat} {pvs : List (Nat × T)}
    (hij : i % M = j % M) (hc : chainInv M h i pvs) : chainInv M h j pvs := by
  induction pvs generalizing i j with
  | nil => trivial
  | cons a rest ih =>
    obtain ⟨p, v⟩ := a
    simp only [chainInv] at hc ⊢
    obtain ⟨hp0, n, hn, hv, hi, hnx, hrest⟩ := hc
    refine ⟨hp0, n, hn, hv, by rw [← hij]; exact hi, hnx, ih ?_ hrest⟩
    rw [Nat.add_mod i 1, Nat.add_mod j 1, hij]

theorem chainInv_ptr_ne_zero {h : Heap T} {M i : Nat} {pvs : List (Nat × T)}
    (hc : chainInv M h i pvs) : ∀ p ∈ pvs.map Prod.fst, p ≠ 0 := by
  induction pvs generalizing i with
  | nil => simp
  | cons a rest ih =>
    obtain ⟨p, v⟩ := a
    simp only [chainInv] at hc
    obtain ⟨hp0, _, _, _, _, _, hrest⟩ := hc
    intro q hq
    rcases List.mem_cons.mp hq with h1 | h2
    · simpa [h1] using hp0
    · exact ih hrest q h2

theorem chainInv_last {h : Heap T} {M i : Nat} {pvs : List (Nat × T)}
    (hc : chainInv M h i pvs) (hne : pvs ≠ []) :
    ∃ n, h (lastOf pvs) = some n ∧
      n.index = some ((i + (pvs.length - 1)) % M) ∧ n.next = 0 := by
  induction pvs generalizing i with
  | nil => exact absurd rfl hne
  | cons a rest ih =>
    obtain ⟨p, v⟩ := a
    simp only [chainInv] at hc
    obtain ⟨hp0, n, hn, hv, hi, hnx, hrest⟩ := hc
    cases rest with
    | nil =>
      refine ⟨n, ?_, ?_, by simpa using hnx⟩
      · rw [lastOf_singleton]; exact hn
      · simpa using hi
    | cons b rest' =>
      rw [lastOf_cons_cons]
      obtain ⟨nL, hL, hLi, hLn⟩ := ih hrest (by simp)
      refine ⟨nL, hL, ?_, hLn⟩
      rw [hLi]
      congr 2
      simp only [List.length_cons]
      omega

theorem chainInv_snoc {h h' : Heap T} {M i : Nat} {pvs : List (Nat × T)} {np : Nat} {vN : T}
    (hc : chainInv M h i pvs) (hne : pvs ≠ [])
    (hnodup : (pvs.map Prod.fst).Nodup)
    (hnp : np ∉ pvs.map Prod.fst) (hnp0 : np ≠ 0)
    (hframe : ∀ p ∈ pvs.map Prod.fst, p ≠ lastOf pvs → h' p = h p)
    (hlast : ∀ nL, h (lastOf pvs) = some nL → h' (lastOf pvs) = some { nL with next := np })
    (hnew : ∃ nN, h' np = some nN ∧ nN.value = some vN ∧
      nN.index = some ((i + pvs.length) % M) ∧ nN.next = 0) :
    chainInv M h' i (pvs ++ [(np, vN)]) := by
  induction pvs generalizing i with
  | nil => exact absurd rfl hne
  | cons a rest ih =>
    obtain ⟨p, v⟩ := a
    simp only [chainInv] at hc
    obtain ⟨hp0, n, hn, hv, hi, hnx, hrest⟩ := hc
    cases rest with
    | nil =>
      obtain ⟨nN, hN, hNv, hNi, hNn⟩ := hnew
      have hlp : lastOf [(p, v)] = p := lastOf_singleton p v
      refine ⟨hp0, { n with next := np }, ?_, hv, hi, rfl, ?_⟩
      · have := hlast n (by rw [hlp]; exact hn)
        rw [hlp] at this
        exact this
      · simp only [chainInv]
        refine ⟨hnp0, nN, hN, hNv, ?_, by simpa using hNn, trivial⟩
        simpa using hNi
    | cons b rest' =>
      obtain ⟨q, w⟩ := b
      have hlcc : lastOf ((p, v) :: (q, w) :: rest') = lastOf ((q, w) :: rest') :=
        lastOf_cons_cons (p, v) (q, w) rest'
      have hrest_ne : ((q, w) :: rest') ≠ ([] : List (Nat × T)) := by simp
      have hpnotin : p ∉ ((q, w) :: rest').map Prod.fst := by
        have := hnodup
        simp only [List.map_cons, List.nodup_cons] at this
        exact this.1
      have hpne : p ≠ lastOf ((q, w) :: rest') := by
        intro e
        exact hpnotin (e ▸ lastOf_mem ((q, w) :: rest') hrest_ne)
      refine ⟨hp0, n, ?_, hv, hi, ?_, ?_⟩
      · rw [hframe p (by simp) (by rw [hlcc]; exact hpne)]
        exact hn
      · simpa using hnx
      · refine ih hrest hrest_ne ?_ ?_ ?_ ?_ ?_
        · have h2 : (p :: ((q, w) :: rest').map Prod.fst).Nodup := by simpa using hnodup
          exact (List.nodup_cons.mp h2).2
        · intro hm
          exact hnp (List.mem_cons_of_mem _ hm)
        · intro r hr hrl
          exact hframe r (List.mem_cons_of_mem _ hr) (by rw [hlcc]; exact hrl)
        · intro nL hL
          have := hlast nL (by rw [hlcc]; exact hL)
          rw [hlcc] at this
          exact this
        · obtain ⟨nN, hN, hNv, hNi, hNn⟩ := hnew
          refine ⟨nN, hN, hNv, ?_, hNn⟩
          rw [hNi]
          congr 2
          simp only [List.length_cons]
          omega

theorem cacheInv_frame {h h' : Heap T} {c : Nat} {cs : List Nat}
    (hc : cacheInv h c cs) (hagree : ∀ q ∈ cs, h' q = h q) : cacheInv h' c cs := by
  induction cs generalizing c with
  | nil => exact hc
  | cons q qs ih =>
    simp only [cacheInv] at hc ⊢
    obtain ⟨hcq, hq0, n, hn, hnx, hrest⟩ := hc
    exact ⟨hcq, hq0, n, by rw [hagree q (by simp)]; exact hn, hnx,
      ih hrest (fun r hr => hagree r (by simp [hr]))⟩

theorem cacheGet_spec {M : Nat} {s : Queue T} {pvs : List (Nat × T)} {cs : List Nat}
    (inv : InvW M s pvs cs) :
    ∃ np s1 cs1 n0,
      s.cacheGet = some (np, s1) ∧
      np ≠ 0 ∧
      s1.head = s.head ∧ s1.tail = s.tail ∧ s1.index = s.index ∧
      s1.heap np = some n0 ∧ n0.next = 0 ∧
      (∀ p, p ≠ np → s1.heap p = s.heap p) ∧
      cacheInv s1.heap s1.cache cs1 ∧
      (pvs.map Prod.fst ++ (np :: cs1)).Nodup ∧
      (∀ p ∈ pvs.map Prod.fst ++ (np :: cs1), p < s1.nextPtr) ∧
      s.nextPtr ≤ s1.nextPtr ∧
      (cs = [] → np = s.nextPtr ∧ s1.nextPtr = s.nextPtr + 1 ∧ s1.cache = s.cache) ∧
      (cs ≠ [] → s1.nextPtr = s.nextPtr ∧ np = s.cache ∧ cs = np :: cs1) := by
  cases cs with
  | nil =>
    have hc0 : s.cache = 0 := inv.cache_ok
    refine ⟨s.nextPtr,
      { s with heap := hset s.heap s.nextPtr Node.new, nextPtr := s.nextPtr + 1 },
      [], Node.new, ?_, ?_, rfl, rfl, rfl, hset_self _ _ _, rfl,
      fun p hp => hset_ne _ _ hp, ?_, ?_, ?_, ?_, ?_, ?_⟩
    · simp [Queue.cacheGet, Queue.cachePop, hc0]
    · show s.nextPtr ≠ 0
      have := inv.next_pos
      omega
    · show cacheInv _ s.cache []
      simpa [cacheInv] using hc0
    · have hnode : (pvs.map Prod.fst).Nodup := by simpa using inv.nodup
      have hnp : s.nextPtr ∉ pvs.map Prod.fst := fun hm => by
        have hb : s.nextPtr < s.nextPtr := inv.bounded _ (by simpa using hm)
        omega
      rw [List.nodup_middle, List.nodup_cons]
      constructor
      · simpa using hnp
      · simpa using hnode
    · intro p hp
      show p < s.nextPtr + 1
      simp only [List.mem_append, List.mem_cons, List.not_mem_nil, or_false] at hp
      rcases hp with hm | he
      · have : p < s.nextPtr := inv.bounded p (by simpa using hm)
        omega
      · omega
    · show s.nextPtr ≤ s.nextPtr + 1
      omega
    · exact fun _ => ⟨rfl, rfl, rfl⟩
    · exact fun h => absurd rfl h
  | cons c cs' =>
    have hco := inv.cache_ok
    simp only [cacheInv] at hco
    obtain ⟨hcc, hc0, n, hn, hnx, hrest⟩ := hco
    refine ⟨c, { s with cache := n.prev }, cs', n, ?_, hc0, rfl, rfl, rfl, hn, hnx,
      fun _ _ => rfl, hrest, inv.nodup, inv.bounded, le_refl _, ?_, ?_⟩
    · rw [Queue.cacheGet, Queue.cachePop]
      rw [if_neg (by rw [hcc]; exact hc0), hcc, hn]
      simp [hc0]
    · exact fun h => absurd h (List.cons_ne_nil _ _)
    · exact fun _ => ⟨rfl, hcc.symm, rfl⟩

theorem hset_override (h : Heap T) (p : Nat) (n m : Node T) :
    hset (hset h p n) p m = hset h p m := by
  funext q
  by_cases hq : q = p <;> simp [hset, hq]

/-- Full functional specification of a sequential `enqueue` on a state
satisfying the invariant: it succeeds, appends the value at the head end of
the chain, preserves the counter, touches only the new node, the old head
node's forward link, the `head` pointer (and `tail` when the queue was
empty), and pops the cache exactly when it is non-empty. -/
theorem enqueue_spec {M : Nat} {s : Queue T} {pvs : List (Nat × T)} {cs : List Nat}
    (inv : InvW M s pvs cs) (v : T) :
    ∃ np s' cs',
      s.enqueue M v = some s' ∧
      InvW M s' (pvs ++ [(np, v)]) cs' ∧
      s'.index = s.index ∧
      s'.head = np ∧ np ∉ pvs.map Prod.fst ∧ np ≠ 0 ∧
      (pvs = [] → s'.tail = np) ∧
      (pvs ≠ [] → s'.tail = s.tail) ∧
      (∀ p, p ≠ np → p ≠ s.head → s'.heap p = s.heap p) ∧
      (pvs ≠ [] → ∀ nh, s.heap s.head = some nh →
        s'.heap s.head = some { nh with next := np }) ∧
      (∃ n, s'.heap np = some n ∧ n.value = some v ∧
        n.index = some ((s.index + pvs.length) % M) ∧ n.next = 0 ∧ n.prev = s.head) ∧
      (cs = [] → s'.cache = s.cache ∧ s'.nextPtr = s.nextPtr + 1) ∧
      (cs ≠ [] → s'.nextPtr = s.nextPtr ∧ s'.cache ≠ s.cache) := by
  obtain ⟨np, s1, cs1, n0, hget, hnp0, hh, ht, hi, hn0, hn0x, hframe1, hcache1, hnodup1,
    hbound1, hle, hnil, hcons⟩ := cacheGet_spec inv
  have hnpnotin : np ∉ pvs.map Prod.fst ++ cs1 := by
    have h2 := hnodup1
    rw [List.nodup_middle] at h2
    exact (List.nodup_cons.mp h2).1
  have hnpps : np ∉ pvs.map Prod.fst := fun hm => hnpnotin (List.mem_append_left _ hm)
  have hnpcs1 : np ∉ cs1 := fun hm => hnpnotin (List.mem_append_right _ hm)
  have hs1cache_ne : cs ≠ [] → s1.cache ≠ s.cache := by
    intro hne
    obtain ⟨_, hnpc, _⟩ := hcons hne
    cases cs1 with
    | nil =>
      have h0 : s1.cache = 0 := hcache1
      rw [h0, ← hnpc]
      exact fun e => hnp0 e.symm
    | cons d ds =>
      have hd : s1.cache = d := by
        simp only [cacheInv] at hcache1
        exact hcache1.1
      rw [hd, ← hnpc]
      exact fun e => hnpcs1 (e ▸ List.mem_cons_self d ds)
  have hmodidx : s.index % M = s.index := Nat.mod_eq_of_lt inv.index_lt
  cases hpv : pvs with
  | nil =>
    -- the queue is empty: s.head = 0
    have hh0 : s.head = 0 := by rw [inv.head_eq, hpv]; rfl
    have hh1 : s1.head = 0 := by rw [hh, hh0]
    refine ⟨np,
      { s1 with
        heap := hset s1.heap np
          { value := some v, index := some s1.index, prev := s1.head, next := n0.next },
        head := np, tail := np },
      cs1, ?_, ?_, ?_, rfl, by rw [hpv] at hnpps; exact hnpps, hnp0,
      fun _ => rfl, fun hne => absurd rfl hne, ?_, fun hne => absurd rfl hne, ?_, ?_, ?_⟩
    · simp only [Queue.enqueue, hget, Option.bind_eq_bind, Option.some_bind, hn0]
      rw [if_neg (by simp [hh1])]
      simp only [hset_self, Option.some_bind, hset_override]
    · constructor
      · show chainInv M _ s1.index ([] ++ [(np, v)])
        simp only [List.nil_append, chainInv]
        refine ⟨hnp0, _, hset_self _ _ _, rfl, ?_, by simpa using hn0x, trivial⟩
        rw [hi, hmodidx]
      · rfl
      · show np = lastOf [(np, v)]
        rw [lastOf_singleton]
      · exact cacheInv_frame hcache1 fun q hq => hset_ne _ _ (fun e => hnpcs1 (e ▸ hq))
      · have h3 := hnodup1
        rw [hpv] at h3
        simpa using h3
      · intro p hp
        exact hbound1 p (by rw [hpv]; simpa using hp)
      · exact hi ▸ inv.index_lt
      · exact le_trans inv.next_pos hle
    · exact hi
    · intro p hpnp _
      show hset s1.heap np _ p = s.heap p
      rw [hset_ne _ _ hpnp]
      exact hframe1 p hpnp
    · refine ⟨_, hset_self _ _ _, rfl, ?_, by simpa using hn0x, by rw [hh]⟩
      show some s1.index = some ((s.index + ([] : List (Nat × T)).length) % M)
      rw [hi]
      simp [hmodidx]
    · intro hcse
      obtain ⟨_, h2, h3⟩ := hnil hcse
      exact ⟨h3, h2⟩
    · intro hcse
      obtain ⟨h1, _, _⟩ := hcons hcse
      exact ⟨h1, hs1cache_ne hcse⟩
  | cons a rest =>
    rw [← hpv]
    have hne : pvs ≠ [] := by rw [hpv]; exact List.cons_ne_nil _ _
    have hlmem : lastOf pvs ∈ pvs.map Prod.fst := lastOf_mem pvs hne
    have hlne0 : lastOf pvs ≠ 0 := chainInv_ptr_ne_zero inv.chain _ hlmem
    have hlnenp : lastOf pvs ≠ np := fun e => hnpps (e ▸ hlmem)
    have hh1 : s1.head = lastOf pvs := by rw [hh, inv.head_eq]
    obtain ⟨nL, hnL, hnLi, hnLn⟩ := chainInv_last inv.chain hne
    have hnL1 : s1.heap (lastOf pvs) = some nL := by
      rw [hframe1 _ hlnenp]; exact hnL
    obtain ⟨f, hf⟩ : ∃ f, s1.nextPtr = f + 1 :=
      ⟨s1.nextPtr - 1, by have := le_trans inv.next_pos hle; omega⟩
    have hidx : ((s.index + (pvs.length - 1)) % M + 1) % M = (s.index + pvs.length) % M := by
      rw [Nat.mod_add_mod]
      congr 1
      have : pvs.length ≠ 0 := fun e => hne (List.length_eq_zero.mp e)
      omega
    refine ⟨np,
      { s1 with
        heap := hset
          (hset s1.heap np
            { value := some v, index := some (((s.index + (pvs.length - 1)) % M + 1) % M),
              prev := s1.head, next := n0.next })
          (lastOf pvs) { nL with next := np },
        head := np },
      cs1, ?_, ?_, ?_, rfl, hnpps, hnp0, fun he => absurd he hne, ?_, ?_, ?_, ?_, ?_, ?_⟩
    · simp only [Queue.enqueue, hget, Option.bind_eq_bind, Option.some_bind, hn0]
      rw [if_pos (by rw [hh1]; exact hlne0)]
      have hwalk : walkIndex M
          (hset s1.heap np { n0 with value := some v, prev := s1.head }) s1.index
          s1.nextPtr s1.head 1 = some (((s.index + (pvs.length - 1)) % M + 1) % M) := by
        rw [hf, walkIndex]
        rw [hh1, hset_ne _ _ hlnenp, hnL1]
        simp only [Option.bind_eq_bind, Option.some_bind, hnLi]
      simp only [hwalk, Option.bind_eq_bind, Option.some_bind, hset_self, hset_override]
      rw [hset_ne _ _ (by rw [hh1]; exact hlnenp), hh1]
      rw [hnL1]
      simp only [Option.some_bind]
    · constructor
      · show chainInv M _ s1.index (pvs ++ [(np, v)])
        rw [hi]
        refine chainInv_snoc inv.chain hne (List.nodup_append.mp inv.nodup).1 hnpps hnp0
          ?_ ?_ ?_
        · intro p hp hpl
          have hpnp : p ≠ np := fun e => hnpps (by rw [← e]; exact hp)
          show hset (hset s1.heap np _) (lastOf pvs) _ p = s.heap p
          rw [hset_ne _ _ hpl, hset_ne _ _ hpnp]
          exact hframe1 p hpnp
        · intro nL' hL'
          show hset (hset s1.heap np _) (lastOf pvs) _ (lastOf pvs) = _
          rw [hnL] at hL'
          cases hL'
          exact hset_self _ _ _
        · refine ⟨{ value := some v, index := some (((s.index + (pvs.length - 1)) % M + 1) % M), prev := s1.head, next := n0.next }, ?_, rfl, ?_, ?_⟩
          · show hset (hset s1.heap np _) (lastOf pvs) _ np = _
            rw [hset_ne _ _ hlnenp.symm, hset_self]
          · show some (((s.index + (pvs.length - 1)) % M + 1) % M)
              = some ((s.index + pvs.length) % M)
            rw [hidx]
          · exact hn0x
      · show s1.tail = nextOf (pvs ++ [(np, v)])
        rw [ht, inv.tail_eq, nextOf_append_ne _ _ hne]
      · show np = lastOf (pvs ++ [(np, v)])
        rw [lastOf_concat]
      · refine cacheInv_frame hcache1 fun q hq => ?_
        have hqnp : q ≠ np := fun e => hnpcs1 (e ▸ hq)
        have hql : q ≠ lastOf pvs := by
          intro e
          have hd := List.disjoint_of_nodup_append hnodup1
          exact hd (e ▸ hlmem) (List.mem_cons_of_mem _ hq)
        show hset (hset s1.heap np _) (lastOf pvs) _ q = s1.heap q
        rw [hset_ne _ _ hql, hset_ne _ _ hqnp]
      · show ((pvs ++ [(np, v)]).map Prod.fst ++ cs1).Nodup
        rw [List.map_append]
        rw [List.append_assoc]
        simpa using hnodup1
      · intro p hp
        show p < s1.nextPtr
        rw [List.map_append, List.append_assoc] at hp
        exact hbound1 p (by simpa using hp)
      · exact hi ▸ inv.index_lt
      · exact le_trans inv.next_pos hle
    · exact hi
    · intro _
      show s1.tail = s.tail
      exact ht
    · intro p hpnp hph
      show hset (hset s1.heap np _) (lastOf pvs) _ p = s.heap p
      rw [hset_ne _ _ (by rw [← inv.head_eq]; exact hph), hset_ne _ _ hpnp]
      exact hframe1 p hpnp
    · intro _ nh hnh
      show hset (hset s1.heap np _) (lastOf pvs) _ s.head = some _
      rw [inv.head_eq, hset_self]
      rw [inv.head_eq, hnL] at hnh
      cases hnh
      rfl
    · refine ⟨{ value := some v, index := some (((s.index + (pvs.length - 1)) % M + 1) % M), prev := s1.head, next := n0.next }, ?_, rfl, ?_, hn0x, hh⟩
      · show hset (hset s1.heap np _) (lastOf pvs) _ np = _
        rw [hset_ne _ _ hlnenp.symm, hset_self]
      · show some (((s.index + (pvs.length - 1)) % M + 1) % M)
            = some ((s.index + pvs.length) % M)
        rw [hidx]
    · intro hcse
      obtain ⟨_, h2, h3⟩ := hnil hcse
      exact ⟨h3, h2⟩
    · intro hcse
      obtain ⟨h1, _, _⟩ := hcons hcse
      exact ⟨h1, hs1cache_ne hcse⟩

theorem lastOf_cons_ne (x : Nat × T) {rest : List (Nat × T)} (h : rest ≠ []) :
    lastOf (x :: rest) = lastOf rest := by
  cases rest with
  | nil => exact absurd rfl h
  | cons b rest' => exact lastOf_cons_cons x b rest'

/-- Sequential run of `set_tail` when the caller's `tail` argument is the
current tail: the first CAS succeeds, the value is extracted and the node
is cleared and pushed on the cache. -/
theorem set_tail_run (M : Nat) (s : Queue T) (nodePtr next index : Nat) (n : Node T) (v : T)
    (ht : s.tail = nodePtr) (hn : s.heap nodePtr = some n) (hv : n.value = some v) :
    s.set_tail M nodePtr nodePtr next index = some (v,
      { s with
        heap := hset s.heap nodePtr { value := none, index := none, prev := s.cache, next := 0 },
        tail := next, cache := nodePtr }) := by
  rw [Queue.set_tail]
  rw [if_pos ht]
  simp only [Option.bind_eq_bind, Option.some_bind]
  show (Option.bind (s.heap nodePtr) _ : Option (T × Queue T)) = _
  rw [hn]
  simp only [Option.some_bind, Option.bind_eq_bind]
  show (Option.bind n.value _ : Option (T × Queue T)) = _
  rw [hv]
  rfl

/-- Full functional specification of a sequential `dequeue_spin` on a
state satisfying the invariant: on an empty queue it returns `Empty` and
leaves the state unchanged; otherwise it returns `Data` of the tail value,
advances the counter by one (wrapping), retires the tail node to the cache
and preserves the invariant.  It never returns `Spin`, for any spin
budget. -/
theorem dequeue_spec {M : Nat} {s : Queue T} {pvs : List (Nat × T)} {cs : List Nat}
    (inv : InvW M s pvs cs) (spin : Nat) :
    (pvs = [] → s.dequeue_spin M spin = some (.Empty, s)) ∧
    (∀ p v rest, pvs = (p, v) :: rest →
      ∃ s', s.dequeue_spin M spin = some (.Data v, s') ∧
        InvW M s' rest (p :: cs) ∧
        s'.index = (s.index + 1) % M ∧ s'.nextPtr = s.nextPtr ∧
        s'.head = lastOf rest ∧ s'.tail = nextOf rest) := by
  obtain ⟨f, hf⟩ : ∃ f, s.nextPtr = f + 1 := ⟨s.nextPtr - 1, by have := inv.next_pos; omega⟩
  have hM : 0 < M := lt_of_le_of_lt (Nat.zero_le _) inv.index_lt
  have hmodidx : s.index % M = s.index := Nat.mod_eq_of_lt inv.index_lt
  constructor
  · intro hpv
    have ht0 : s.tail = 0 := by rw [inv.tail_eq, hpv]; rfl
    rw [Queue.dequeue_spin, hf, Queue.dequeueLoop, if_pos ht0]
  · intro p v rest hpv
    have hchain := inv.chain
    rw [hpv] at hchain
    simp only [chainInv] at hchain
    obtain ⟨hp0, n, hn, hnv, hni, hnx, hrest⟩ := hchain
    have ht : s.tail = p := by rw [inv.tail_eq, hpv]; rfl
    have hnodup : (p :: (rest.map Prod.fst ++ cs)).Nodup := by
      have h2 := inv.nodup
      rw [hpv] at h2
      simpa using h2
    have hpnotin : p ∉ rest.map Prod.fst ++ cs := (List.nodup_cons.mp hnodup).1
    have hprest : p ∉ rest.map Prod.fst := fun hm => hpnotin (List.mem_append_left _ hm)
    have hpcs : p ∉ cs := fun hm => hpnotin (List.mem_append_right _ hm)
    -- the cleared node pushed on the cache
    have hinv' : ∀ s3 : Queue T,
        s3.heap = hset s.heap p { value := none, index := none, prev := s.cache, next := 0 } →
        s3.head = lastOf rest → s3.tail = nextOf rest →
        s3.index = (s.index + 1) % M → s3.cache = p → s3.nextPtr = s.nextPtr →
        InvW M s3 rest (p :: cs) := by
      intro s3 hheap hhead htail hidx hcache hnext
      refine ⟨?_, htail, hhead, ?_, ?_, ?_, ?_, ?_⟩
      · rw [hheap, hidx]
        have hc2 : chainInv M
            (hset s.heap p { value := none, index := none, prev := s.cache, next := 0 })
            (s.index + 1) rest :=
          chainInv_frame hrest fun q hq => hset_ne _ _ (fun e => hprest (e ▸ hq))
        exact chainInv_congr (by simp) hc2
      · rw [hcache, hheap]
        refine ⟨rfl, hp0, _, hset_self _ _ _, rfl, ?_⟩
        exact cacheInv_frame inv.cache_ok fun q hq => hset_ne _ _ (fun e => hpcs (e ▸ hq))
      · rw [List.nodup_middle]
        exact hnodup
      · intro q hq
        rw [hnext]
        refine inv.bounded q ?_
        rw [hpv]
        rcases List.mem_append.mp hq with hm | hm
        · exact List.mem_append_left _ (by simpa using Or.inr (by simpa using hm))
        · rcases List.mem_cons.mp hm with he | hm'
          · exact List.mem_append_left _ (by simp [he])
          · exact List.mem_append_right _ hm'
      · rw [hidx]
        exact Nat.mod_lt _ hM
      · rw [hnext]
        exact inv.next_pos
    cases rest with
    | nil =>
      -- p is the sole node: the head CAS empties the queue
      have hh : s.head = p := by rw [inv.head_eq, hpv, lastOf_singleton]
      refine ⟨{ s with heap := hset s.heap p { value := none, index := none, prev := s.cache, next := 0 }, head := 0, tail := 0, index := (s.index + 1) % M, cache := p }, ?_, ?_, rfl, rfl, rfl, rfl⟩
      · rw [Queue.dequeue_spin, hf, Queue.dequeueLoop]
        rw [if_neg (by rw [ht]; exact hp0)]
        simp only [ht, hh, hn, hni, hnx, hmodidx, Option.bind_eq_bind, Option.some_bind,
          nextOf_nil]
        rw [if_neg (by simp)]
        rw [if_pos (by simp)]
        simp only [if_true]
        rw [set_tail_run M { heap := s.heap, head := 0, tail := p, index := (s.index + 1) % M, cache := s.cache, nextPtr := s.nextPtr } p 0 s.index n v rfl hn hnv]
        simp only [Option.bind_eq_bind, Option.some_bind]
        rw [hf]
      · exact hinv' _ rfl rfl rfl rfl rfl rfl
    | cons b rest' =>
      have hbne : (b :: rest') ≠ ([] : List (Nat × T)) := List.cons_ne_nil _ _
      have hh : s.head = lastOf (b :: rest') := by
        rw [inv.head_eq, hpv, lastOf_cons_ne _ hbne]
      have hlmem : lastOf (b :: rest') ∈ (b :: rest').map Prod.fst := lastOf_mem _ hbne
      have hph : p ≠ s.head := by
        rw [hh]
        intro e
        exact hprest (e ▸ hlmem)
      obtain ⟨q, w⟩ := b
      have hq0 : q ≠ 0 := by
        have := hrest
        simp only [chainInv] at this
        exact this.1
      have hpq : p ≠ lastOf ((q, w) :: rest') := fun e => hprest (e ▸ hlmem)
      refine ⟨{ s with heap := hset s.heap p { value := none, index := none, prev := s.cache, next := 0 }, tail := q, index := (s.index + 1) % M, cache := p }, ?_, ?_, rfl, rfl, hh, rfl⟩
      · rw [Queue.dequeue_spin, hf, Queue.dequeueLoop]
        rw [if_neg (by rw [ht]; exact hp0)]
        simp only [ht, hn, hni, hnx, hmodidx, Option.bind_eq_bind, Option.some_bind,
          nextOf_cons]
        rw [if_neg (by simp [hq0])]
        rw [if_pos (by simp)]
        rw [if_neg (by rw [hh]; exact hpq)]
        rw [set_tail_run M { heap := s.heap, head := s.head, tail := p, index := (s.index + 1) % M, cache := s.cache, nextPtr := s.nextPtr } p q s.index n v rfl hn hnv]
        simp only [Option.bind_eq_bind, Option.some_bind]
        rw [hf]
      · exact hinv' _ rfl hh rfl rfl rfl rfl

/-- Running any sequence of operations from an invariant-satisfying state
produces exactly the outputs of the reference functional FIFO, preserves
the invariant, and leaves the counter advanced by the number of `Data`
results (mod `M`). -/
theorem runImpl_spec {M : Nat} :
    ∀ (ops : List (QOp T)) (s : Queue T) (l : List T), InvL M s l →
    ∃ s', runImpl M s ops = some ((runSpec l ops).1, s') ∧
      InvL M s' (runSpec l ops).2 ∧
      s'.index = (s.index + countData (runSpec l ops).1) % M := by
  intro ops
  induction ops with
  | nil =>
    intro s l hinv
    obtain ⟨pvs, cs, inv, hmap⟩ := hinv
    exact ⟨s, rfl, ⟨pvs, cs, inv, hmap⟩,
      by simpa using (Nat.mod_eq_of_lt inv.index_lt).symm⟩
  | cons op ops ih =>
    intro s l hinv
    obtain ⟨pvs, cs, inv, hmap⟩ := hinv
    cases op with
    | enq v =>
      obtain ⟨np, s1, cs', heq, hinv1, hidx1, -, -, -, -, -, -, -, -, -, -⟩ :=
        enqueue_spec inv v
      obtain ⟨s2, hrun, hinv2, hidx2⟩ := ih s1 (l ++ [v])
        ⟨pvs ++ [(np, v)], cs', hinv1, by simp [hmap]⟩
      refine ⟨s2, ?_, hinv2, ?_⟩
      · simp only [runImpl, runSpec, heq, Option.bind_eq_bind, Option.some_bind]
        exact hrun
      · rw [hidx2, hidx1]
        simp only [runSpec]
    | deq sp =>
      have hds := dequeue_spec inv sp
      cases hpv : pvs with
      | nil =>
        have hd0 := hds.1 hpv
        have hl0 : l = [] := by rw [← hmap, hpv]; rfl
        subst hl0
        obtain ⟨s2, hrun, hinv2, hidx2⟩ := ih s [] ⟨pvs, cs, inv, hmap⟩
        refine ⟨s2, ?_, hinv2, ?_⟩
        · simp only [runImpl, runSpec, hd0, hrun, Option.bind_eq_bind, Option.some_bind]
        · rw [hidx2]
          simp [runSpec, countData]
      | cons a rest0 =>
        obtain ⟨p, v⟩ := a
        obtain ⟨s1, hdeq, hinv1, hidx1, -, -, -⟩ := hds.2 p v rest0 hpv
        have hl : l = v :: rest0.map Prod.snd := by rw [← hmap, hpv]; rfl
        subst hl
        obtain ⟨s2, hrun, hinv2, hidx2⟩ := ih s1 (rest0.map Prod.snd)
          ⟨rest0, p :: cs, hinv1, rfl⟩
        refine ⟨s2, ?_, hinv2, ?_⟩
        · simp only [runImpl, runSpec, hdeq, hrun, Option.bind_eq_bind, Option.some_bind]
        · rw [hidx2, hidx1, Nat.mod_add_mod]
          show _ = (s.index + countData (Dequeue.Data v :: (runSpec (rest0.map Prod.snd) ops).1)) % M
          simp only [countData]
          congr 1
          omega

/-- The invariant holds for a fresh queue. -/
theorem InvW_new {M : Nat} (hM : 0 < M) : InvW M (Queue.new : Queue T) [] [] := by
  refine ⟨trivial, rfl, rfl, rfl, List.nodup_nil, ?_, hM, le_refl 1⟩
  intro p hp
  simp at hp

/-- The invariant with abstract contents `[]` holds for a fresh queue. -/
theorem InvL_new {M : Nat} (hM : 0 < M) : InvL M (Queue.new : Queue T) [] :=
  ⟨[], [], InvW_new hM, rfl⟩

theorem InvW_head_tail {M : Nat} {s : Queue T} {pvs : List (Nat × T)} {cs : List Nat}
    (inv : InvW M s pvs cs) : (s.head = 0 ↔ s.tail = 0) ∧ (s.tail = 0 ↔ pvs = []) := by
  cases pvs with
  | nil =>
    rw [inv.head_eq, inv.tail_eq]
    simp
  | cons a rest =>
    obtain ⟨p, v⟩ := a
    have hp0 : p ≠ 0 := by
      have hc := inv.chain
      simp only [chainInv] at hc
      exact hc.1
    have hl0 : lastOf ((p, v) :: rest) ≠ 0 :=
      chainInv_ptr_ne_zero inv.chain _ (lastOf_mem _ (List.cons_ne_nil _ _))
    rw [inv.head_eq, inv.tail_eq]
    simp [hl0, hp0]

theorem InvL_tail_index {M : Nat} {s : Queue T} {l : List T} (hinv : InvL M s l)
    (htne : s.tail ≠ 0) :
    ∀ n j, s.heap s.tail = some n → n.index = some j → j = s.index := by
  obtain ⟨pvs, cs, inv, hmap⟩ := hinv
  cases hpv : pvs with
  | nil =>
    rw [inv.tail_eq, hpv] at htne
    exact absurd rfl htne
  | cons a rest =>
    obtain ⟨p, v⟩ := a
    have hc := inv.chain
    rw [hpv] at hc
    simp only [chainInv] at hc
    obtain ⟨hp0, n0, hn0, -, hni, -, -⟩ := hc
    intro n j hn hj
    rw [inv.tail_eq, hpv, nextOf_cons, hn0] at hn
    cases hn
    rw [hni] at hj
    cases hj
    exact Nat.mod_eq_of_lt inv.index_lt

/-- A state reachable from `Queue::new()` satisfies the invariant with the
abstract contents computed by the functional FIFO, produced exactly the
functional outputs, and its counter counts the `Data` results. -/
theorem reach_inv {T : Type} {W : Nat} {ops : List (QOp T)} {out : List (Dequeue T)}
    {s : Queue T} (hreach : runImpl (2 ^ W) Queue.new ops = some (out, s)) :
    InvL (2 ^ W) s (runSpec ([] : List T) ops).2 ∧
    out = (runSpec ([] : List T) ops).1 ∧
    s.index = countData out % 2 ^ W := by
  obtain ⟨s1, h, hinv, hidx⟩ := runImpl_spec ops Queue.new []
    (InvL_new (pow_pos (by norm_num : (0:ℕ) < 2) W))
  rw [hreach] at h
  injection h with h3
  have he1 : out = (runSpec ([] : List T) ops).1 := congrArg Prod.fst h3
  have he2 : s = s1 := congrArg Prod.snd h3
  subst he2
  refine ⟨hinv, he1, ?_⟩
  rw [he1]
  simpa [Queue.new] using hidx

/-! ### Claim theorems -/

/-- C1: for every sequence of single-threaded `Queue` operations, the core
queue is observationally equivalent to the reference functional FIFO queue
(`enqueue` appends at the back; `dequeue_spin` returns `Data` of the front
and removes it when the queue is non-empty, and `Empty` when it is empty);
in particular the concrete scenario S2 holds. -/
theorem c1_queue_refines_functional_fifo :
    (∀ (T : Type) (W : Nat) (ops : List (QOp T)),
      ∃ s', runImpl (2 ^ W) Queue.new ops = some ((runSpec [] ops).1, s')) ∧
    (runImpl (2 ^ 64) Queue.new s2ops).map Prod.fst =
      some [Dequeue.Data 0, Dequeue.Data 1, Dequeue.Data 2, Dequeue.Data 3,
        Dequeue.Data 4, Dequeue.Data 5, Dequeue.Empty] := by
  have hgen : ∀ (T : Type) (W : Nat) (ops : List (QOp T)),
      ∃ s', runImpl (2 ^ W) Queue.new ops = some ((runSpec [] ops).1, s') := by
    intro T W ops
    obtain ⟨s', h, -, -⟩ := runImpl_spec ops Queue.new []
      (InvL_new (pow_pos (by norm_num : (0:ℕ) < 2) W))
    exact ⟨s', h⟩
  refine ⟨hgen, ?_⟩
  obtain ⟨s', h⟩ := hgen Nat 64 s2ops
  rw [h]
  rfl

/-- C3: a state reachable by a sequential (quiescent) sequence of
`enqueue`/`dequeue_spin` operations from `Queue::new()` never yields
`Spin`: every `dequeue_spin` call on it, with any spin budget including
`0`, returns `Data` or `Empty`. -/
theorem c3_no_spin_when_quiescent {T : Type} {W : Nat} {ops : List (QOp T)}
    {out : List (Dequeue T)} {s : Queue T}
    (hreach : runImpl (2 ^ W) Queue.new ops = some (out, s)) (spin : Nat) :
    ∃ r s', s.dequeue_spin (2 ^ W) spin = some (r, s') ∧ r ≠ Dequeue.Spin := by
  obtain ⟨hinv, -, -⟩ := reach_inv hreach
  obtain ⟨pvs, cs, inv, hmap⟩ := hinv
  have hds := dequeue_spec inv spin
  cases hpv : pvs with
  | nil => exact ⟨Dequeue.Empty, s, hds.1 hpv, by simp⟩
  | cons a rest =>
    obtain ⟨p, v⟩ := a
    obtain ⟨s2, hdeq, -, -, -, -, -⟩ := hds.2 p v rest hpv
    exact ⟨Dequeue.Data v, s2, hdeq, by simp⟩

/-- C3 witness at the initial state with spin budget 0. -/
theorem c3_witness :
    runImpl (2 ^ 3) (Queue.new : Queue Nat) [] = some ([], Queue.new) ∧
    ∃ r s', (Queue.new : Queue Nat).dequeue_spin (2 ^ 3) 0 = some (r, s') ∧
      r ≠ Dequeue.Spin :=
  ⟨rfl, c3_no_spin_when_quiescent
    (show runImpl (2 ^ 3) (Queue.new : Queue Nat) [] = some ([], Queue.new) from rfl) 0⟩

/-- C4: in every quiescent state reachable by sequential operations from
`Queue::new()`, the counter `self.index` equals (mod `2^W`) the number of
values dequeued so far; whenever `tail` is non-null and its node index is
set, `self.index` equals that index; each successful dequeue advances
`self.index` by exactly one (wrapping); and an enqueue on the empty queue
leaves `self.index` unchanged, equal to the sequence index it assigns. -/
theorem c4_index_counts_dequeues {T : Type} {W : Nat} {ops : List (QOp T)}
    {out : List (Dequeue T)} {s : Queue T}
    (hreach : runImpl (2 ^ W) Queue.new ops = some (out, s)) :
    s.index = countData out % 2 ^ W ∧
    (s.tail ≠ 0 → ∀ n j, s.heap s.tail = some n → n.index = some j → j = s.index) ∧
    (∀ spin v s', s.dequeue_spin (2 ^ W) spin = some (Dequeue.Data v, s') →
      s'.index = (s.index + 1) % 2 ^ W) ∧
    (s.tail = 0 → ∀ v s', s.enqueue (2 ^ W) v = some s' →
      s'.index = s.index ∧ ∃ n, s'.heap s'.head = some n ∧ n.index = some s.index) := by
  obtain ⟨hinv, -, hcnt⟩ := reach_inv hreach
  obtain ⟨pvs, cs, inv, hmap⟩ := hinv
  refine ⟨hcnt, InvL_tail_index ⟨pvs, cs, inv, hmap⟩, ?_, ?_⟩
  · intro spin v s' hdeq
    have hds := dequeue_spec inv spin
    cases hpv : pvs with
    | nil =>
      rw [hds.1 hpv] at hdeq
      cases hdeq
    | cons a rest =>
      obtain ⟨p, v0⟩ := a
      obtain ⟨s2, hdeq2, -, hidx2, -, -, -⟩ := hds.2 p v0 rest hpv
      rw [hdeq2] at hdeq
      injection hdeq with h4
      rw [show s' = s2 from (congrArg Prod.snd h4).symm]
      exact hidx2
  · intro ht0 v s' henq
    have hpv : pvs = [] := ((InvW_head_tail inv).2.mp ht0)
    obtain ⟨np, s2, cs', heq, hinv2, hidx2, hhd2, -, -, -, -, -, -,
      ⟨n, hn, -, hni, -, -⟩, -, -⟩ := enqueue_spec inv v
    rw [heq] at henq
    injection henq with h5
    subst h5
    refine ⟨hidx2, n, by rw [hhd2]; exact hn, ?_⟩
    rw [hni, hpv]
    simp [Nat.mod_eq_of_lt inv.index_lt]

/-- C4 witness at the initial state. -/
theorem c4_witness :
    runImpl (2 ^ 3) (Queue.new : Queue Nat) [] = some ([], Queue.new) ∧
    ((Queue.new : Queue Nat).index = countData ([] : List (Dequeue Nat)) % 2 ^ 3 ∧
      ((Queue.new : Queue Nat).tail ≠ 0 → ∀ n j,
        (Queue.new : Queue Nat).heap (Queue.new : Queue Nat).tail = some n →
        n.index = some j → j = (Queue.new : Queue Nat).index) ∧
      (∀ spin v s', (Queue.new : Queue Nat).dequeue_spin (2 ^ 3) spin
          = some (Dequeue.Data v, s') →
        s'.index = ((Queue.new : Queue Nat).index + 1) % 2 ^ 3) ∧
      ((Queue.new : Queue Nat).tail = 0 → ∀ v s',
        (Queue.new : Queue Nat).enqueue (2 ^ 3) v = some s' →
        s'.index = (Queue.new : Queue Nat).index ∧
        ∃ n, s'.heap s'.head = some n ∧ n.index = some (Queue.new : Queue Nat).index)) :=
  ⟨rfl, c4_index_counts_dequeues
    (show runImpl (2 ^ 3) (Queue.new : Queue Nat) [] = some ([], Queue.new) from rfl)⟩

/-- C5: in every quiescent reachable state, `head` is null iff `tail` is
null iff the queue is logically empty (`dequeue` returns `Empty`), and the
equivalence is preserved by every enqueue and every successful dequeue. -/
theorem c5_null_head_iff_null_tail_iff_empty {T : Type} {W : Nat} {ops : List (QOp T)}
    {out : List (Dequeue T)} {s : Queue T}
    (hreach : runImpl (2 ^ W) Queue.new ops = some (out, s)) :
    (s.head = 0 ↔ s.tail = 0) ∧
    (s.tail = 0 ↔ (s.dequeue_spin (2 ^ W) 0).map Prod.fst = some Dequeue.Empty) ∧
    (∀ v s', s.enqueue (2 ^ W) v = some s' → (s'.head = 0 ↔ s'.tail = 0)) ∧
    (∀ spin v s', s.dequeue_spin (2 ^ W) spin = some (Dequeue.Data v, s') →
      (s'.head = 0 ↔ s'.tail = 0)) := by
  obtain ⟨hinv, -, -⟩ := reach_inv hreach
  obtain ⟨pvs, cs, inv, hmap⟩ := hinv
  have hds := dequeue_spec inv 0
  refine ⟨(InvW_head_tail inv).1, ?_, ?_, ?_⟩
  · rw [(InvW_head_tail inv).2]
    constructor
    · intro hpv
      rw [hds.1 hpv]
      rfl
    · intro hmap2
      cases hpv : pvs with
      | nil => rfl
      | cons a rest =>
        obtain ⟨p, v⟩ := a
        obtain ⟨s2, hdeq2, -, -, -, -, -⟩ := hds.2 p v rest hpv
        rw [hdeq2] at hmap2
        simp at hmap2
  · intro v s' henq
    obtain ⟨np, s2, cs', heq, hinv2, -, -, -, -, -, -, -, -, -, -, -⟩ :=
      enqueue_spec inv v
    rw [heq] at henq
    injection henq with h5
    subst h5
    exact (InvW_head_tail hinv2).1
  · intro spin v s' hdeq
    have hds2 := dequeue_spec inv spin
    cases hpv : pvs with
    | nil =>
      rw [hds2.1 hpv] at hdeq
      cases hdeq
    | cons a rest =>
      obtain ⟨p, v0⟩ := a
      obtain ⟨s2, hdeq2, hinv2, -, -, -, -⟩ := hds2.2 p v0 rest hpv
      rw [hdeq2] at hdeq
      injection hdeq with h4
      rw [show s' = s2 from (congrArg Prod.snd h4).symm]
      exact (InvW_head_tail hinv2).1

/-- C5 witness at the initial state. -/
theorem c5_witness :
    runImpl (2 ^ 3) (Queue.new : Queue Nat) [] = some ([], Queue.new) ∧
    (((Queue.new : Queue Nat).head = 0 ↔ (Queue.new : Queue Nat).tail = 0) ∧
      ((Queue.new : Queue Nat).tail = 0 ↔
        ((Queue.new : Queue Nat).dequeue_spin (2 ^ 3) 0).map Prod.fst
          = some Dequeue.Empty) ∧
      (∀ v s', (Queue.new : Queue Nat).enqueue (2 ^ 3) v = some s' →
        (s'.head = 0 ↔ s'.tail = 0)) ∧
      (∀ spin v s', (Queue.new : Queue Nat).dequeue_spin (2 ^ 3) spin
          = some (Dequeue.Data v, s') → (s'.head = 0 ↔ s'.tail = 0))) :=
  ⟨rfl, c5_null_head_iff_null_tail_iff_empty
    (show runImpl (2 ^ 3) (Queue.new : Queue Nat) [] = some ([], Queue.new) from rfl)⟩

/-- C6: all sequence-index arithmetic is modular over the machine word.
On a non-empty queue the index assigned to a newly enqueued node is the
predecessor (old head) node's index plus the offset `1`, computed mod
`2^W` (wrapping addition); and raw mod-`2^W` equality comparisons (as in
`i == ti`, `i == ci-1`) agree with equality of the true unbounded counters
whenever they are fewer than `2^(W-1)` apart. -/
theorem c6_wrapping_index_arithmetic :
    (∀ (T : Type) (W : Nat) (s : Queue T) (pvs : List (Nat × T)) (cs : List Nat),
      InvW (2 ^ W) s pvs cs → ∀ (v : T) (nPred : Node T) (j : Nat),
      pvs ≠ [] → s.heap s.head = some nPred → nPred.index = some j →
      ∃ s' n, s.enqueue (2 ^ W) v = some s' ∧ s'.heap s'.head = some n ∧
        n.index = some ((j + 1) % 2 ^ W)) ∧
    (∀ (W a b : Nat), a ≤ b → b - a < 2 ^ (W - 1) →
      (a % 2 ^ W = b % 2 ^ W ↔ a = b)) := by
  constructor
  · intro T W s pvs cs inv v nPred j hne hpred hpredi
    obtain ⟨nL, hnL, hnLi, -⟩ := chainInv_last inv.chain hne
    rw [inv.head_eq, hnL] at hpred
    cases hpred
    rw [hnLi] at hpredi
    injection hpredi with hj
    obtain ⟨np, s', cs', heq, -, -, hhd, -, -, -, -, -, -,
      ⟨n, hn, -, hni, -, -⟩, -, -⟩ := enqueue_spec inv v
    refine ⟨s', n, heq, by rw [hhd]; exact hn, ?_⟩
    rw [hni, ← hj, Nat.mod_add_mod]
    congr 2
    have : pvs.length ≠ 0 := fun e => hne (List.length_eq_zero.mp e)
    omega
  · intro W a b hab hlt
    constructor
    · intro hmod
      have hdvd : 2 ^ W ∣ b - a := (Nat.modEq_iff_dvd' hab).mp hmod
      have hle : 2 ^ (W - 1) ≤ 2 ^ W := Nat.pow_le_pow_right (by norm_num) (Nat.sub_le W 1)
      have hz : b - a = 0 := Nat.eq_zero_of_dvd_of_lt hdvd (lt_of_lt_of_le hlt hle) |>.symm ▸ rfl
      omega
    · intro h
      rw [h]

/-- C6 helper: the invariant holds at the concrete one-element state. -/
theorem InvW_oneElemQ : InvW (2 ^ 3) oneElemQ [(1, 5)] [] := by
  refine ⟨?_, rfl, ?_, rfl, by decide, ?_, by decide, by decide⟩
  · exact ⟨by decide, _, rfl, rfl, rfl, rfl, trivial⟩
  · rw [lastOf_singleton]
    rfl
  · intro p hp
    simp at hp
    simp [hp, oneElemQ]

/-- C6 witness: a concrete enqueue on the one-element state assigns index
`(0 + 1) % 2^3`, and a concrete wrap-comparison instance. -/
theorem c6_witness :
    (InvW (2 ^ 3) oneElemQ [(1, 5)] [] ∧
      ∃ s' n, oneElemQ.enqueue (2 ^ 3) 7 = some s' ∧ s'.heap s'.head = some n ∧
        n.index = some ((0 + 1) % 2 ^ 3)) ∧
    (3 ≤ 5 ∧ 5 - 3 < 2 ^ (3 - 1) ∧ (3 % 2 ^ 3 = 5 % 2 ^ 3 ↔ 3 = 5)) :=
  ⟨⟨InvW_oneElemQ,
      c6_wrapping_index_arithmetic.1 Nat 3 oneElemQ [(1, 5)] [] InvW_oneElemQ 7
        { value := some 5, index := some 0, prev := 0, next := 0 } 0
        (by decide) rfl rfl⟩,
    by decide, by decide,
    c6_wrapping_index_arithmetic.2 3 3 5 (by decide) (by decide)⟩

/-- C7 counterexample: in a contended state (a concurrent enqueue has
CAS-published its node at `head` but not yet linked `next`), the
deadline-expired return path of `dequeue_timeout` returns `Spin`, not
`Empty` — so the claim "its result is never Spin" fails. -/
theorem c7_counterexample :
    (contendedSQ.dequeue_timeout_expired (2 ^ 64) 0).map Prod.fst = some Dequeue.Spin ∧
    (Dequeue.Spin : Dequeue Nat) ≠ Dequeue.Empty :=
  ⟨rfl, by decide⟩

/-- C7 amended: when the deadline of `dequeue_timeout` expires before a
`Data` result is observed, the call returns the result of one final
`try_dequeue_spin`; on a quiescent inner queue that result is `Empty`
exactly when the queue is empty (and `Data` otherwise), never `Spin` —
but under contention the final try can itself return `Spin`. -/
theorem c7_timeout_expiry_amended {T : Type} {W : Nat} {sq : SynchronizedQueue T}
    {l : List T} (hinv : InvL (2 ^ W) sq.inner l) (spin : Nat) :
    ∃ r s', sq.dequeue_timeout_expired (2 ^ W) spin = some (r, s') ∧
      r ≠ Dequeue.Spin ∧ (r = Dequeue.Empty ↔ l = []) := by
  obtain ⟨pvs, cs, inv, hmap⟩ := hinv
  have hds := dequeue_spec inv spin
  cases hpv : pvs with
  | nil =>
    refine ⟨Dequeue.Empty, sq.inner, hds.1 hpv, by simp, ?_⟩
    rw [← hmap, hpv]
    simp
  | cons a rest =>
    obtain ⟨p, v⟩ := a
    obtain ⟨s2, hdeq, -, -, -, -, -⟩ := hds.2 p v rest hpv
    refine ⟨Dequeue.Data v, s2, hdeq, by simp, ?_, ?_⟩
    · intro h
      cases h
    · intro hl
      rw [← hmap, hpv] at hl
      simp at hl

/-- C7 witness for the amended statement, at the fresh synchronized
queue. -/
theorem c7_witness :
    InvL (2 ^ 3) (SynchronizedQueue.new : SynchronizedQueue Nat).inner [] ∧
    ∃ r s', (SynchronizedQueue.new : SynchronizedQueue Nat).dequeue_timeout_expired (2 ^ 3) 0
        = some (r, s') ∧ r ≠ Dequeue.Spin ∧ (r = Dequeue.Empty ↔ ([] : List Nat) = []) :=
  ⟨InvL_new (by norm_num), c7_timeout_expiry_amended (InvL_new (by norm_num)) 0⟩

/-- C8 helper: once the latch is set, every later `wake` returns `false`
and the latch stays set. -/
theorem runWaker_latched : ∀ ops : List WakerOp,
    (runWaker { notified := true } ops).1 = { notified := true } ∧
    ∀ r ∈ (runWaker { notified := true } ops).2, r = false := by
  intro ops
  induction ops with
  | nil => exact ⟨rfl, by simp [runWaker]⟩
  | cons op ops ih =>
    cases op with
    | wake =>
      constructor
      · simpa [runWaker, Waker.wake] using ih.1
      · intro r hr
        simp only [runWaker, Waker.wake] at hr
        rcases List.mem_cons.mp hr with he | hm
        · simpa using he
        · exact ih.2 r hm
    | abort =>
      constructor
      · simpa [runWaker, Waker.abort] using ih.1
      · intro r hr
        simp only [runWaker, Waker.abort] at hr
        exact ih.2 r hr

/-- C8: the waker latch is single-shot: `wake()` returns `true` iff the
latch was unset before the call; over a waker's whole lifetime at most one
`wake()` returns `true`; and after an `abort()` every later `wake()`
returns `false`. -/
theorem c8_waker_single_shot :
    (∀ w : Waker, (Waker.wake w).1 = true ↔ w.notified = false) ∧
    (∀ ops : List WakerOp, (runWaker Waker.new ops).2.count true ≤ 1) ∧
    (∀ ops1 ops2 : List WakerOp,
      ∀ r ∈ (runWaker (Waker.abort (runWaker Waker.new ops1).1) ops2).2, r = false) := by
  refine ⟨?_, ?_, ?_⟩
  · intro w
    obtain ⟨b⟩ := w
    cases b <;> simp [Waker.wake]
  · intro ops
    cases ops with
    | nil => simp [runWaker]
    | cons op ops =>
      cases op with
      | wake =>
        have hz : ((runWaker { notified := true } ops).2.count true) = 0 := by
          rw [List.count_eq_zero]
          intro hmem
          have := (runWaker_latched ops).2 true hmem
          cases this
        simp only [runWaker, Waker.new, Waker.wake]
        simp [List.count_cons, hz]
      | abort =>
        have hz : ((runWaker { notified := true } ops).2.count true) = 0 := by
          rw [List.count_eq_zero]
          intro hmem
          have := (runWaker_latched ops).2 true hmem
          cases this
        simp only [runWaker, Waker.new, Waker.abort]
        simp [hz]
  · intro ops1 ops2
    exact (runWaker_latched ops2).2

/-- The chain is shorter than the allocation bound (its pointers are
distinct, non-null and below the bound). -/
theorem InvW_length_lt {M : Nat} {s : Queue T} {pvs : List (Nat × T)} {cs : List Nat}
    (inv : InvW M s pvs cs) : pvs.length < s.nextPtr := by
  have hnd : (pvs.map Prod.fst).Nodup := (List.nodup_append.mp inv.nodup).1
  have hsub : (pvs.map Prod.fst).toFinset ⊆ Finset.Ioo 0 s.nextPtr := by
    intro p hp
    rw [List.mem_toFinset] at hp
    rw [Finset.mem_Ioo]
    exact ⟨Nat.pos_of_ne_zero (chainInv_ptr_ne_zero inv.chain p hp),
      inv.bounded p (List.mem_append_left _ hp)⟩
  have hcard := Finset.card_le_card hsub
  rw [List.toFinset_card_of_nodup hnd, Nat.card_Ioo, List.length_map] at hcard
  have := inv.next_pos
  omega

/-- Specification of the waker loop of `enqueue_notify_spin`: with enough
fuel it terminates, and the latch table changes at no identifier except
possibly the single woken one, which goes from unset to set. -/
theorem notifyWakers_spec {M : Nat} :
    ∀ (ids : List Nat) (wq : Queue Nat) (wakers : Nat → Bool) (spin fuel : Nat),
    InvL M wq ids → ids.length < fuel →
    ∃ wq' wk' wo, notifyWakers M spin fuel wq wakers = some (wq', wk', wo) ∧
      (∀ i, wo ≠ some i → wk' i = wakers i) ∧
      (∀ i, wo = some i → wakers i = false ∧ wk' i = true) := by
  intro ids
  induction ids with
  | nil =>
    intro wq wakers spin fuel hinv hfuel
    obtain ⟨pvs, cs, inv, hmap⟩ := hinv
    have hpv : pvs = [] := by
      cases pvs with
      | nil => rfl
      | cons a rest => simp at hmap
    obtain ⟨f, hf⟩ : ∃ f, fuel = f + 1 := ⟨fuel - 1, by omega⟩
    subst hf
    have hd0 := (dequeue_spec inv spin).1 hpv
    refine ⟨wq, wakers, none, ?_, fun i _ => rfl, fun i h => by cases h⟩
    simp only [notifyWakers, hd0, Option.bind_eq_bind, Option.some_bind]
  | cons id0 rest ih =>
    intro wq wakers spin fuel hinv hfuel
    obtain ⟨pvs, cs, inv, hmap⟩ := hinv
    cases hpv : pvs with
    | nil =>
      rw [hpv] at hmap
      simp at hmap
    | cons a pvrest =>
      obtain ⟨p, i0⟩ := a
      rw [hpv] at hmap
      simp only [List.map_cons, List.cons.injEq] at hmap
      obtain ⟨hi0, hrest⟩ := hmap
      subst hi0
      obtain ⟨s1, hdeq, hinv1, -, -, -, -⟩ := (dequeue_spec inv spin).2 p i0 pvrest hpv
      obtain ⟨f, hf⟩ : ∃ f, fuel = f + 1 := ⟨fuel - 1, by omega⟩
      subst hf
      have hflen : rest.length < f := by
        simp only [List.length_cons] at hfuel
        omega
      by_cases hw : wakers i0 = true
      · obtain ⟨wq', wk', wo, hrun, hagree, htrans⟩ := ih s1
          (fun j => if j = i0 then true else wakers j) spin f
          ⟨pvrest, p :: cs, hinv1, hrest⟩ hflen
        refine ⟨wq', wk', wo, ?_, ?_, ?_⟩
        · simp only [notifyWakers, hdeq, Option.bind_eq_bind, Option.some_bind]
          rw [if_pos hw]
          exact hrun
        · intro i hi
          rw [hagree i hi]
          by_cases hii : i = i0
          · subst hii
            simp [hw]
          · simp [hii]
        · intro i hi
          obtain ⟨h1, h2⟩ := htrans i hi
          refine ⟨?_, h2⟩
          by_cases hii : i = i0
          · subst hii
            simp at h1
          · simpa [hii] using h1
      · refine ⟨s1, fun j => if j = i0 then true else wakers j, some i0, ?_, ?_, ?_⟩
        · simp only [notifyWakers, hdeq, Option.bind_eq_bind, Option.some_bind]
          rw [if_neg hw]
        · intro i hi
          have hii : i ≠ i0 := fun e => hi (by rw [e])
          simp [hii]
        · intro i hi
          injection hi with hi0
          subst hi0
          exact ⟨by simpa using hw, by simp⟩

/-- C9: `enqueue_notify_spin(v, spin)` first enqueues `v` on the inner
queue and then pops wakers one at a time from `wake_queue`, waking each
and stopping at the first whose `wake()` returns `true`; consequently each
call lets at most one waker transition from unnotified to notified. -/
theorem c9_enqueue_notify_at_most_one {T : Type} {W : Nat} {sq : SynchronizedQueue T}
    {l : List T} {ids : List Nat}
    (hinner : InvL (2 ^ W) sq.inner l) (hwake : InvL (2 ^ W) sq.wake_queue ids)
    (v : T) (spin : Nat) :
    ∃ sq', sq.enqueue_notify_spin (2 ^ W) v spin = some sq' ∧
      InvL (2 ^ W) sq'.inner (l ++ [v]) ∧
      ∃ wo : Option Nat,
        (∀ i, wo ≠ some i → sq'.wakers i = sq.wakers i) ∧
        (∀ i, wo = some i → sq.wakers i = false ∧ sq'.wakers i = true) := by
  obtain ⟨pvs, cs, inv, hmap⟩ := hinner
  obtain ⟨np, s1, cs1, heqn, hinv1, -, -, -, -, -, -, -, -, -, -, -⟩ := enqueue_spec inv v
  obtain ⟨pvsW, csW, invW2, hmapW⟩ := hwake
  have hlen : ids.length < sq.wake_queue.nextPtr := by
    rw [← hmapW, List.length_map]
    exact InvW_length_lt invW2
  obtain ⟨wq', wk', wo, hrun, hagree, htrans⟩ := notifyWakers_spec ids sq.wake_queue
    sq.wakers spin sq.wake_queue.nextPtr ⟨pvsW, csW, invW2, hmapW⟩ hlen
  refine ⟨⟨s1, wq', wk'⟩, ?_, ⟨pvs ++ [(np, v)], cs1, hinv1, by simp [hmap]⟩,
    wo, hagree, htrans⟩
  simp only [SynchronizedQueue.enqueue_notify_spin, heqn, hrun, Option.bind_eq_bind,
    Option.some_bind]

/-- C9 witness at the fresh synchronized queue. -/
theorem c9_witness :
    InvL (2 ^ 3) (SynchronizedQueue.new : SynchronizedQueue Nat).inner [] ∧
    InvL (2 ^ 3) (SynchronizedQueue.new : SynchronizedQueue Nat).wake_queue [] ∧
    ∃ sq', (SynchronizedQueue.new : SynchronizedQueue Nat).enqueue_notify_spin (2 ^ 3) 7 0
        = some sq' ∧
      InvL (2 ^ 3) sq'.inner ([] ++ [7]) ∧
      ∃ wo : Option Nat,
        (∀ i, wo ≠ some i →
          sq'.wakers i = (SynchronizedQueue.new : SynchronizedQueue Nat).wakers i) ∧
        (∀ i, wo = some i →
          (SynchronizedQueue.new : SynchronizedQueue Nat).wakers i = false ∧
          sq'.wakers i = true) :=
  ⟨InvL_new (by norm_num), InvL_new (by norm_num),
    c9_enqueue_notify_at_most_one (InvL_new (by norm_num)) (InvL_new (by norm_num)) 7 0⟩

/-- C10 counterexample: from the reachable quiescent state `cachedQ`
(its node cache holds the retired node `1`, so `cachedQ.cache = 1`),
`enqueue` pops the cache and the cache top pointer changes to `0` — a
modification not in the claim's list of modified locations. -/
theorem c10_counterexample :
    (cachedQ.enqueue (2 ^ 64) 7).map Queue.cache = some 0 ∧ cachedQ.cache = 1 ∧
    (0 : Nat) ≠ 1 :=
  ⟨rfl, rfl, by decide⟩

/-- C10 amended: `enqueue(v)` leaves `self.index` unchanged, leaves the
value and sequence index of every node currently in the queue unchanged,
and modifies only the `head` pointer, the new node's fields, the previous
head node's `next` link, the `tail` pointer when the queue was empty — and
in addition the node cache: when the cache is non-empty the new node is
popped from it (changing the cache top pointer), and when it is empty a
fresh node is allocated (advancing the allocation bound). -/
theorem c10_enqueue_frame {T : Type} {W : Nat} {s : Queue T} {pvs : List (Nat × T)}
    {cs : List Nat} (inv : InvW (2 ^ W) s pvs cs) (v : T) :
    ∃ np s', s.enqueue (2 ^ W) v = some s' ∧
      s'.index = s.index ∧
      s'.head = np ∧
      (∀ p, p ≠ np → p ≠ s.head → s'.heap p = s.heap p) ∧
      (pvs ≠ [] → ∀ nh, s.heap s.head = some nh →
        s'.heap s.head = some { nh with next := np }) ∧
      (pvs ≠ [] → s'.tail = s.tail) ∧
      (pvs = [] → s'.tail = np) ∧
      (cs = [] → s'.cache = s.cache ∧ s'.nextPtr = s.nextPtr + 1) ∧
      (cs ≠ [] → s'.nextPtr = s.nextPtr ∧ s'.cache ≠ s.cache) := by
  obtain ⟨np, s', cs', heq, -, hidx, hhd, -, -, hnil, hne, hframe, hnext, -, hcs0, hcs1⟩ :=
    enqueue_spec inv v
  exact ⟨np, s', heq, hidx, hhd, hframe, hnext, hne, hnil, hcs0, hcs1⟩

/-- C10 witness for the amended statement, at the fresh queue. -/
theorem c10_witness :
    InvW (2 ^ 3) (Queue.new : Queue Nat) [] [] ∧
    ∃ np s', (Queue.new : Queue Nat).enqueue (2 ^ 3) 5 = some s' ∧
      s'.index = (Queue.new : Queue Nat).index ∧
      s'.head = np ∧
      (∀ p, p ≠ np → p ≠ (Queue.new : Queue Nat).head →
        s'.heap p = (Queue.new : Queue Nat).heap p) ∧
      (([] : List (Nat × Nat)) ≠ [] → ∀ nh,
        (Queue.new : Queue Nat).heap (Queue.new : Queue Nat).head = some nh →
        s'.heap (Queue.new : Queue Nat).head = some { nh with next := np }) ∧
      (([] : List (Nat × Nat)) ≠ [] → s'.tail = (Queue.new : Queue Nat).tail) ∧
      (([] : List (Nat × Nat)) = [] → s'.tail = np) ∧
      (([] : List Nat) = [] → s'.cache = (Queue.new : Queue Nat).cache ∧
        s'.nextPtr = (Queue.new : Queue Nat).nextPtr + 1) ∧
      (([] : List Nat) ≠ [] → s'.nextPtr = (Queue.new : Queue Nat).nextPtr ∧
        s'.cache ≠ (Queue.new : Queue Nat).cache) :=
  ⟨InvW_new (by norm_num), c10_enqueue_frame (InvW_new (by norm_num)) 5⟩

end Umpmc
